import Mathlib

/-!
Shallow embedding of the search core of `src/vvault_scripts/master/needle.py`
(the "needle" line-oriented text-search utility), together with theorems that
settle the specification's claims about it.

Modelling conventions:
* Python strings are `Str := List Char`; Python substring membership
  (`needle in hay`) is `strHas`.
* Filesystem paths are component lists (`PathC := List Str`); absolute paths
  are rendered with a leading `/` by `renderAbs`, relative ones by `render`.
  `Path.resolve()` of a joined relative spec is modelled lexically by
  `resolveSpec` (".." pops a component, "." and empty components are
  dropped); symbolic links are outside the model.
* The filesystem is an explicit value `FS`: a finite list of text files
  (path plus decoded lines, stored without their trailing line terminators)
  and a finite list of directories.
* The external engine (ripgrep) is not part of the repository; where a claim
  depends on it, `rgModelStdout` models the engine as invoked by `_run_rg`
  (`rg -n --no-heading -S [-F] [--case-sensitive] -g ... needle <abs paths>`):
  smart-case literal matching (case-insensitive unless the pattern contains
  an uppercase letter, overridden by `--case-sensitive`), emitting
  `path:line:text` records where `path` is echoed exactly as given on the
  command line (hence absolute).  Elsewhere the subprocess result
  (return code, stderr, stdout lines) is an oracle parameter of `mainModel`.
* `int()` applied to the line-number field is modelled for the decimal-digit
  strings the engine actually emits.
-/

abbrev Str := List Char

/-- Characters of a Lean string literal, used to write `Str` constants. -/
def chars (s : String) : Str := s.data

/-- Test whether `s` begins with `p` (character-wise). -/
def strStarts : Str → Str → Bool
  | [], _ => true
  | _ :: _, [] => false
  | c :: p, d :: s => c == d && strStarts p s

/-- Python `needle in hay` for strings: `needle` occurs contiguously in `hay`. -/
def strHas (needle : Str) : Str → Bool
  | [] => needle.isEmpty
  | c :: rest => strStarts needle (c :: rest) || strHas needle rest

/-- Python `str.lower()` (ASCII-adequate model via `Char.toLower`). -/
def lowerS (s : Str) : Str := s.map Char.toLower

/-- Python `s.rstrip("\n")`: remove trailing newline characters. -/
def rstripNl (s : Str) : Str := (s.reverse.dropWhile (fun c => c == '\n')).reverse

/-- Python `s.strip()`: remove leading and trailing whitespace. -/
def pyStrip (s : Str) : Str :=
  ((s.dropWhile Char.isWhitespace).reverse.dropWhile Char.isWhitespace).reverse

/-- Python `enumerate(xs, start=i)`. -/
def enumFrom (i : Nat) : List Str → List (Nat × Str)
  | [] => []
  | s :: rest => (i, s) :: enumFrom (i + 1) rest

/-- Decimal digit character for `d < 10`. -/
def digitChar : Nat → Char
  | 0 => '0' | 1 => '1' | 2 => '2' | 3 => '3' | 4 => '4'
  | 5 => '5' | 6 => '6' | 7 => '7' | 8 => '8' | _ => '9'

/-- Fuelled digit renderer (structural recursion so the kernel can compute
it); the fuel is always sufficient when called through `natToStr`. -/
def natToStrGo : Nat → Nat → Str
  | 0, _ => []
  | fuel + 1, n =>
    if n < 10 then [digitChar n]
    else natToStrGo fuel (n / 10) ++ [digitChar (n % 10)]

/-- Decimal rendering of a natural number (as the engine prints line numbers). -/
def natToStr (n : Nat) : Str := natToStrGo (n + 1) n

/-- Python `int(s)` on the decimal-digit strings the engine emits:
`some` of the value for a nonempty all-digit string, `none` otherwise
(signs, whitespace, underscores and non-ASCII digits are outside the model). -/
def parseNat (s : Str) : Option Nat :=
  if s.isEmpty then none
  else if s.all Char.isDigit then
    some (s.foldl (fun a c => 10 * a + (c.toNat - 48)) 0)
  else none

/-- Split at the first occurrence of `t`, if any (`s = before ++ t :: after`). -/
def splitFirst (t : Char) : Str → Option (Str × Str)
  | [] => none
  | c :: rest =>
    if c == t then some ([], rest)
    else match splitFirst t rest with
      | none => none
      | some (a, b) => some (c :: a, b)

/-- Python `s.split(t, 2)`: at most three fields. -/
def pySplit2 (t : Char) (s : Str) : List Str :=
  match splitFirst t s with
  | none => [s]
  | some (a, b) =>
    match splitFirst t b with
    | none => [a, b]
    | some (b1, b2) => [a, b1, b2]

/-- The `Match` dataclass of needle.py: path string, 1-based line number, line text. -/
structure Match where
  path : Str
  line : Nat
  text : Str
deriving DecidableEq

/-- Field extraction of `_parse_rg_line` after the leading `rstrip("\n")`. -/
def parseCore (s : Str) : Option Match :=
  match pySplit2 ':' s with
  | [p, ls, t] =>
    match parseNat ls with
    | some n => some ⟨p, n, t⟩
    | none => none
  | _ => none

/-- Model of `_parse_rg_line`: strip trailing newlines, split on the first two colons,
parse the middle field as an integer; `none` on any failure. -/
def parseRgLine (line : Str) : Option Match := parseCore (rstripNl line)

/-- The stop test `max_hits is not None and len(matches) >= max_hits`. -/
def capReached (maxHits : Option Nat) (n : Nat) : Bool :=
  match maxHits with
  | some k => k ≤ n
  | none => false

/-- Loop of `_run_rg` over the subprocess stdout lines: parse each line,
skip unparsable ones, stop as soon as the cap is reached. -/
def runRgGo (maxHits : Option Nat) : List Str → List Match → List Match
  | [], acc => acc
  | raw :: rest, acc =>
    match parseRgLine raw with
    | none => runRgGo maxHits rest acc
    | some m =>
      let acc' := acc ++ [m]
      if capReached maxHits acc'.length then acc' else runRgGo maxHits rest acc'

/-- Matches returned by `_run_rg` given the subprocess stdout lines. -/
def runRgMatches (maxHits : Option Nat) (stdout : List Str) : List Match :=
  runRgGo maxHits stdout []

/-- Path as a list of components (no separators inside a component). -/
abbrev PathC := List Str

/-- Component-list prefix test (`relative_to` succeeds iff this holds). -/
def compPre : PathC → PathC → Bool
  | [], _ => true
  | _ :: _, [] => false
  | a :: as, b :: bs => a == b && compPre as bs

/-- Render a relative path with `/` separators (as `str(Path(...))` does). -/
def render : PathC → Str
  | [] => []
  | [c] => c
  | c :: rest => c ++ '/' :: render rest

/-- Render an absolute path (leading `/`), as `str(p)` for a resolved path. -/
def renderAbs (p : PathC) : Str := '/' :: render p

/-- Python `str(f.relative_to(root))`: `"."` when `f = root`, else the
rendered remaining components.  (Callers guarantee `root` is a prefix of
`f`; on other inputs `relative_to` would raise, which no caller catches.) -/
def relStr (root f : PathC) : Str :=
  let r := f.drop root.length
  if r.isEmpty then chars "." else render r

/-- Lexical model of `Path.resolve()` applied to `root / rel`: walk the
relative components, dropping `"."` and empty components and letting `".."`
pop the last component (at the filesystem root it is a no-op, as in POSIX). -/
def normJoin (acc : PathC) : List Str → PathC
  | [] => acc
  | c :: rest =>
    if c == chars "." || c == ([] : Str) then normJoin acc rest
    else if c == chars ".." then normJoin acc.dropLast rest
    else normJoin (acc ++ [c]) rest

/-- Resolution `(root / rel).resolve()` for a relative spec `rel` (symlink-free model). -/
def resolveSpec (root : PathC) (rel : PathC) : PathC := normJoin root rel

/-- Filesystem model: text files (decoded lines, terminator-free) and
directories.  All model files are readable; the `OSError`/`UnicodeError`
skip paths of the source are therefore never taken in the model. -/
structure FS where
  files : List (PathC × List Str)
  dirs : List PathC
deriving DecidableEq

def isFile (fs : FS) (p : PathC) : Bool := fs.files.any (fun e => e.1 == p)

def pathExists (fs : FS) (p : PathC) : Bool := isFile fs p || fs.dirs.any (fun d => d == p)

def fileLines (fs : FS) (p : PathC) : List Str :=
  match fs.files.find? (fun e => e.1 == p) with
  | some e => e.2
  | none => []

/-- Model of `_existing_paths`: join each spec to the root, resolve, keep it only if
it still lies within the root (`relative_to` succeeds) and exists on disk. -/
def existingPaths (fs : FS) (root : PathC) (rels : List PathC) : List PathC :=
  rels.filterMap (fun rel =>
    let p := resolveSpec root rel
    if compPre root p && pathExists fs p then some p else none)

/-- File name (last component) of a path. -/
def fileName (p : PathC) : Str :=
  match p.getLast? with
  | some c => c
  | none => []

/-- Glob match against a file name, for the glob shapes the tool uses
(`*`, `*.txt`-style suffix patterns, or a literal name). -/
def matchesGlob (g : Str) (name : Str) : Bool :=
  match g with
  | [] => name.isEmpty
  | c :: rest =>
    if c == '*' then
      if rest.isEmpty then true
      else decide (rest = name.drop (name.length - rest.length))
    else g == name

/-- Files of the filesystem lying strictly under (or at) `base`. -/
def filesUnder (fs : FS) (base : PathC) : List PathC :=
  (fs.files.map (fun e => e.1)).filter (fun f => compPre base f)

/-- Model of `_iter_files`: each base that is a file is itself a target; under a
directory base, enumerate files matching each glob, in glob order.
(`rglob` may also yield matching directories, but opening one raises
`OSError` and is skipped, so only files are relevant.) -/
def iterFiles (fs : FS) (paths : List PathC) (globs : List Str) : List PathC :=
  paths.flatMap (fun base =>
    if isFile fs base then [base]
    else globs.flatMap (fun g =>
      (filesUnder fs base).filter (fun f => matchesGlob g (fileName f))))

/-- Comparison of `_run_python_fallback`: exact substring if case-sensitive,
else both needle and haystack are lowered first. -/
def lineHit (caseSensitive : Bool) (needle line : Str) : Bool :=
  if caseSensitive then strHas needle line else strHas (lowerS needle) (lowerS line)

/-- Inner loop of `_run_python_fallback` over one file's numbered lines:
append a `Match` (boundary-relative path, line number, rstripped text) per
hit and report whether the cap was reached (early `return matches`). -/
def scanLines (caseSensitive : Bool) (needle : Str) (rel : Str)
    (maxHits : Option Nat) (acc : List Match) :
    List (Nat × Str) → List Match × Bool
  | [] => (acc, false)
  | (i, line) :: rest =>
    if lineHit caseSensitive needle line then
      let acc' := acc ++ [⟨rel, i, rstripNl line⟩]
      if capReached maxHits acc'.length then (acc', true)
      else scanLines caseSensitive needle rel maxHits acc' rest
    else scanLines caseSensitive needle rel maxHits acc rest

/-- Outer loop of `_run_python_fallback` over the enumerated files. -/
def scanFiles (fs : FS) (root : PathC) (caseSensitive : Bool) (needle : Str)
    (maxHits : Option Nat) (acc : List Match) : List PathC → List Match
  | [] => acc
  | f :: rest =>
    let res := scanLines caseSensitive needle (relStr root f) maxHits acc
      (enumFrom 1 (fileLines fs f))
    if res.2 then res.1
    else scanFiles fs root caseSensitive needle maxHits res.1 rest

/-- Model of `_run_python_fallback`. -/
def runPythonFallback (fs : FS) (root : PathC) (needle : Str)
    (paths : List PathC) (globs : List Str) (caseSensitive : Bool)
    (maxHits : Option Nat) : List Match :=
  scanFiles fs root caseSensitive needle maxHits [] (iterFiles fs paths globs)

/-- All matches of one file, uncapped (reference value for cap-0 runs). -/
def fileAllMatches (fs : FS) (root : PathC) (caseSensitive : Bool)
    (needle : Str) (f : PathC) : List Match :=
  ((enumFrom 1 (fileLines fs f)).filter
      (fun p => lineHit caseSensitive needle p.2)).map
    (fun p => ⟨relStr root f, p.1, rstripNl p.2⟩)

/-- Uncapped fallback scan: every match of every enumerated file, in order. -/
def fallbackAll (fs : FS) (root : PathC) (needle : Str) (paths : List PathC)
    (globs : List Str) (caseSensitive : Bool) : List Match :=
  (iterFiles fs paths globs).flatMap (fileAllMatches fs root caseSensitive needle)

/-- Model of `_read_context_window` on a readable file with the given raw lines:
keep the 1-based numbered lines between `max(1, line_no - around)` and
`line_no + around`, each with its trailing newlines stripped. -/
def readContextWindow (lines : List Str) (lineNo around : Nat) :
    List (Nat × Str) :=
  ((enumFrom 1 lines).filter
      (fun p => max 1 (lineNo - around) ≤ p.1 ∧ p.1 ≤ lineNo + around)).map
    (fun p => (p.1, rstripNl p.2))

/-- Effective case sensitivity of the modelled engine: `-S` smart case,
overridden by `--case-sensitive`. -/
def rgSens (caseSensitive : Bool) (needle : Str) : Bool :=
  caseSensitive || needle.any (fun c => c.isUpper)

/-- Model of the external engine's stdout as invoked by `_run_rg`: for each
enumerated file (absolute path, echoed as given on the command line) and
each hit line, a `path:line:text` record. -/
def rgModelStdout (fs : FS) (paths : List PathC)
    (globs : List Str) (needle : Str) (caseSensitive : Bool) : List Str :=
  (iterFiles fs paths globs).flatMap (fun f =>
    ((enumFrom 1 (fileLines fs f)).filter
        (fun p => lineHit (rgSens caseSensitive needle) needle p.2)).map
      (fun p => renderAbs f ++ ':' :: (natToStr p.1 ++ ':' :: p.2)))

/-- The parsed CLI arguments of `main` (fields in source order; `around` and
`json` do not influence the modelled outcome and are omitted). -/
structure Args where
  needle : Str
  pathsArg : Option (List PathC)
  globArg : List Str
  allFiles : Bool
  regex : Bool
  caseSensitive : Bool
  maxArg : Int
deriving DecidableEq

def DEFAULT_GLOBS : List Str := [chars "*.txt", chars "*.md"]

def DEFAULT_PATHS : List PathC :=
  [[chars "chatgpt"], [chars "github_copilot"], [chars "character.ai"],
   [chars "cursor_conversations"], [chars "codex_conversations"],
   [chars "chatgpt", chars "codex_transcripts"]]

/-- The `rel_paths` value: supplied specs when present and nonempty, else defaults. -/
def relPathsOf (args : Args) : List PathC :=
  match args.pathsArg with
  | some l => if l.isEmpty then DEFAULT_PATHS else l
  | none => DEFAULT_PATHS

/-- Search paths after validation: `none` is the fatal "no valid search
paths" exit; an empty validated set with defaulted specs silently becomes
the root itself. -/
def effectiveSearchPaths (fs : FS) (root : PathC) (args : Args) :
    Option (List PathC) :=
  match existingPaths fs root (relPathsOf args), args.pathsArg with
  | [], some _ => none
  | [], none => some [root]
  | v, _ => some v

/-- Effective glob list (`--all-files` wins; else supplied or defaults). -/
def effectiveGlobs (args : Args) : List Str :=
  if args.allFiles then [chars "*"]
  else if args.globArg.isEmpty then DEFAULT_GLOBS else args.globArg

/-- The cap `max_hits = None if args.max == 0 else max(1, args.max)`. -/
def effectiveMaxHits (m : Int) : Option Nat :=
  if m = 0 then none else some (max 1 m).toNat

/-- Backend-failure detail: stripped stderr if nonempty, else the formatted
`rg failed with code N` message. -/
def surfaceErr (rc : Nat) (stderr : Str) : Str :=
  if (pyStrip stderr).isEmpty then chars "rg failed with code " ++ natToStr rc
  else pyStrip stderr

/-- Outcome of `main`, separating the distinct stderr diagnostics. -/
inductive MainResult where
  | ok (found : List Match)
  | usageNoPaths
  | usageRegexUnsupported
  | backendFailure (msg : Str)
deriving DecidableEq

/-- Process exit code of each outcome. -/
def exitCode : MainResult → Nat
  | .ok _ => 0
  | .usageNoPaths => 2
  | .usageRegexUnsupported => 2
  | .backendFailure _ => 1

/-- Model of `main`, with the root already resolved and the external subprocess
result (`rgRc`, `rgStderr`, `rgStdout`) supplied as an oracle. -/
def mainModel (fs : FS) (root : PathC) (rgAvailable : Bool) (rgRc : Nat)
    (rgStderr : Str) (rgStdout : List Str) (args : Args) : MainResult :=
  match effectiveSearchPaths fs root args with
  | none => .usageNoPaths
  | some paths =>
    if rgAvailable then
      if rgRc == 0 || rgRc == 1 then
        .ok (runRgMatches (effectiveMaxHits args.maxArg) rgStdout)
      else .backendFailure (surfaceErr rgRc rgStderr)
    else if args.regex then .usageRegexUnsupported
    else .ok (runPythonFallback fs root args.needle paths (effectiveGlobs args)
      args.caseSensitive (effectiveMaxHits args.maxArg))

/-! ### Concrete inputs used by witnesses and counterexamples -/

/-- Shared concrete corpus: boundary `/r` with one file `/r/a.txt`. -/
def fsDemo : FS :=
  ⟨[([chars "r", chars "a.txt"],
     [chars "one", chars "two needle three", chars "four"])],
   [[chars "r"]]⟩

/-- Concrete arguments: defaulted paths, `--all-files`, cap 2. -/
def argsDemoCap : Args := ⟨chars "x", none, [], true, false, false, 2⟩

/-- Concrete stdout with three parsable records. -/
def soDemo : List Str :=
  [chars "a:1:x", chars "b:2:y", chars "c:3:z"]

/-- Concrete negative-cap arguments over the demo corpus (fallback backend,
two lines would match uncapped). -/
def argsDemoNeg : Args := ⟨chars "o", none, [], true, false, false, -5⟩

/-- Arguments for the default-spec scenario: no explicit paths, defaults
absent from the demo filesystem. -/
def argsDemoDflt : Args := ⟨chars "needle", none, [], true, false, false, 200⟩

/-- Arguments of the C3 counterexample: regex mode, explicit spec list whose
sole entry does not exist. -/
def argsC3 : Args := ⟨chars "pat", some [[chars "nope"]], [], false, true, false, 200⟩

/-- Regex request over defaulted specs with the engine unavailable. -/
def argsC3w : Args := ⟨chars "pat", none, [], false, true, false, 200⟩

/-- A boundary `/r/v` with an existing sibling `/r/secret` outside it. -/
def fsEscape : FS :=
  ⟨[], [[chars "r", chars "v"], [chars "r", chars "v", chars "chatgpt"],
        [chars "r", chars "secret"]]⟩

def specsEscape : List PathC :=
  [[chars "chatgpt"], [chars "..", chars "secret"],
   [chars "..", chars "v", chars "chatgpt"]]

def linesDemo : List Str := [chars "one", chars "two", chars "three", chars "four"]

/-- Predicate of the spec's Match-path invariant: `mp` names one of the validated paths'
boundary-relative forms, or the boundary-relative form of a filesystem file
beneath one of them (the spec's Match-path invariant). -/
def matchPathOkB (fs : FS) (root : PathC) (paths : List PathC) (mp : Str) : Bool :=
  paths.any (fun base =>
    mp == relStr root base ||
    fs.files.any (fun e => compPre base e.1 && mp == relStr root e.1))

/-! ### Cap and loop lemmas -/

theorem runRgGo_cap_le (k : Nat) :
    ∀ (so : List Str) (acc : List Match), acc.length < k →
      (runRgGo (some k) so acc).length ≤ k := by
  intro so
  induction so with
  | nil => intro acc h; simpa [runRgGo] using Nat.le_of_lt h
  | cons raw rest ih =>
    intro acc h
    simp only [runRgGo]
    cases hp : parseRgLine raw with
    | none => exact ih acc h
    | some m =>
      by_cases hc : k ≤ (acc ++ [m]).length
      · simp only [capReached, decide_eq_true_eq, hc, if_true]
        simp only [List.length_append, List.length_cons, List.length_nil]
        omega
      · simp only [capReached, decide_eq_true_eq, hc, if_false]
        refine ih (acc ++ [m]) ?_
        simp only [List.length_append, List.length_cons, List.length_nil]
        simp only [List.length_append, List.length_cons, List.length_nil] at hc
        omega

theorem runRgGo_none (so : List Str) :
    ∀ acc : List Match, runRgGo none so acc = acc ++ so.filterMap parseRgLine := by
  induction so with
  | nil => intro acc; simp [runRgGo]
  | cons raw rest ih =>
    intro acc
    simp only [runRgGo]
    cases hp : parseRgLine raw with
    | none => simp [hp, ih]
    | some m => simp [hp, capReached, ih]

theorem runRgMatches_cap_le (k : Nat) (hk : 1 ≤ k) (so : List Str) :
    (runRgMatches (some k) so).length ≤ k :=
  runRgGo_cap_le k so [] (by simpa using hk)

theorem runRgMatches_none (so : List Str) :
    runRgMatches none so = so.filterMap parseRgLine := by
  simpa using runRgGo_none so []

theorem runRgGo_mem (cap : Option Nat) :
    ∀ (so : List Str) (acc : List Match) (m : Match), m ∈ runRgGo cap so acc →
      m ∈ acc ∨ m ∈ so.filterMap parseRgLine := by
  intro so
  induction so with
  | nil => intro acc m h; exact Or.inl (by simpa [runRgGo] using h)
  | cons raw rest ih =>
    intro acc m h
    simp only [runRgGo] at h
    cases hp : parseRgLine raw with
    | none =>
      rw [hp] at h
      rcases ih acc m h with h' | h'
      · exact Or.inl h'
      · exact Or.inr (by simp [List.filterMap_cons, hp, h'])
    | some m' =>
      simp only [hp] at h
      by_cases hc : capReached cap (acc ++ [m']).length = true
      · rw [if_pos hc] at h
        rcases List.mem_append.1 h with h' | h'
        · exact Or.inl h'
        · exact Or.inr (by simp [List.filterMap_cons, hp]; left; simpa using h')
      · rw [if_neg hc] at h
        rcases ih (acc ++ [m']) m h with h' | h'
        · rcases List.mem_append.1 h' with h'' | h''
          · exact Or.inl h''
          · exact Or.inr (by simp [List.filterMap_cons, hp]; left; simpa using h'')
        · refine Or.inr ?_
          simp only [List.filterMap_cons, hp, List.mem_cons]
          exact Or.inr h'


theorem scanLines_cap (cs : Bool) (needle : Str) (rel : Str) (k : Nat) :
    ∀ (ls : List (Nat × Str)) (acc : List Match), acc.length < k →
      (scanLines cs needle rel (some k) acc ls).1.length ≤ k ∧
      ((scanLines cs needle rel (some k) acc ls).2 = false →
        (scanLines cs needle rel (some k) acc ls).1.length < k) := by
  intro ls
  induction ls with
  | nil =>
    intro acc h
    constructor
    · simpa [scanLines] using Nat.le_of_lt h
    · intro _; simpa [scanLines] using h
  | cons p rest ih =>
    intro acc h
    obtain ⟨i, line⟩ := p
    simp only [scanLines]
    by_cases hhit : lineHit cs needle line = true
    · rw [if_pos hhit]
      split
      next hcb =>
        constructor
        · show (acc ++ [(⟨rel, i, rstripNl line⟩ : Match)]).length ≤ k
          simp only [List.length_append, List.length_cons, List.length_nil]
          omega
        · intro h2; exact absurd h2 (by simp)
      next hcb =>
        refine ih _ ?_
        simp only [capReached, decide_eq_true_eq] at hcb
        simp only [List.length_append, List.length_cons, List.length_nil] at hcb ⊢
        omega
    · rw [if_neg hhit]
      exact ih acc h

theorem scanLines_none (cs : Bool) (needle : Str) (rel : Str) :
    ∀ (ls : List (Nat × Str)) (acc : List Match),
      scanLines cs needle rel none acc ls =
        (acc ++ (ls.filter (fun p => lineHit cs needle p.2)).map
          (fun p => (⟨rel, p.1, rstripNl p.2⟩ : Match)), false) := by
  intro ls
  induction ls with
  | nil => intro acc; simp [scanLines]
  | cons p rest ih =>
    intro acc
    obtain ⟨i, line⟩ := p
    simp only [scanLines]
    by_cases hhit : lineHit cs needle line = true
    · rw [if_pos hhit]
      simp only [capReached, Bool.false_eq_true, if_false]
      rw [ih]
      simp [List.filter_cons, hhit]
    · rw [if_neg hhit]
      rw [ih]
      simp only [Bool.not_eq_true] at hhit
      simp [List.filter_cons, hhit]

theorem scanLines_mem (cs : Bool) (needle : Str) (rel : Str) (cap : Option Nat) :
    ∀ (ls : List (Nat × Str)) (acc : List Match) (m : Match),
      m ∈ (scanLines cs needle rel cap acc ls).1 → m ∈ acc ∨ m.path = rel := by
  intro ls
  induction ls with
  | nil => intro acc m h; exact Or.inl (by simpa [scanLines] using h)
  | cons p rest ih =>
    intro acc m h
    obtain ⟨i, line⟩ := p
    simp only [scanLines] at h
    by_cases hhit : lineHit cs needle line = true
    · rw [if_pos hhit] at h
      revert h
      split
      next hcb =>
        intro h
        rcases List.mem_append.1 h with h' | h'
        · exact Or.inl h'
        · right; simp at h'; rw [h']
      next hcb =>
        intro h
        rcases ih _ m h with h' | h'
        · rcases List.mem_append.1 h' with h'' | h''
          · exact Or.inl h''
          · right; simp at h''; rw [h'']
        · exact Or.inr h'
    · rw [if_neg hhit] at h
      exact ih acc m h

theorem scanFiles_cap (fs : FS) (root : PathC) (cs : Bool) (needle : Str) (k : Nat) :
    ∀ (files : List PathC) (acc : List Match), acc.length < k →
      (scanFiles fs root cs needle (some k) acc files).length ≤ k := by
  intro files
  induction files with
  | nil => intro acc h; simpa [scanFiles] using Nat.le_of_lt h
  | cons f rest ih =>
    intro acc h
    simp only [scanFiles]
    split
    next hstop =>
      exact (scanLines_cap cs needle (relStr root f) k
        (enumFrom 1 (fileLines fs f)) acc h).1
    next hstop =>
      refine ih _ ?_
      have h2 := (scanLines_cap cs needle (relStr root f) k
        (enumFrom 1 (fileLines fs f)) acc h).2
      exact h2 (by simpa using hstop)

theorem scanFiles_none (fs : FS) (root : PathC) (cs : Bool) (needle : Str) :
    ∀ (files : List PathC) (acc : List Match),
      scanFiles fs root cs needle none acc files =
        acc ++ files.flatMap (fileAllMatches fs root cs needle) := by
  intro files
  induction files with
  | nil => intro acc; simp [scanFiles]
  | cons f rest ih =>
    intro acc
    simp only [scanFiles]
    rw [scanLines_none]
    simp only [Bool.false_eq_true, if_false]
    rw [ih]
    simp [fileAllMatches, List.flatMap_cons, List.append_assoc]

theorem scanFiles_mem (fs : FS) (root : PathC) (cs : Bool) (needle : Str)
    (cap : Option Nat) :
    ∀ (files : List PathC) (acc : List Match) (m : Match),
      m ∈ scanFiles fs root cs needle cap acc files →
        m ∈ acc ∨ ∃ f ∈ files, m.path = relStr root f := by
  intro files
  induction files with
  | nil => intro acc m h; exact Or.inl (by simpa [scanFiles] using h)
  | cons f rest ih =>
    intro acc m h
    simp only [scanFiles] at h
    revert h
    split
    next hstop =>
      intro h
      rcases scanLines_mem cs needle (relStr root f) cap _ acc m h with h' | h'
      · exact Or.inl h'
      · exact Or.inr ⟨f, by simp, h'⟩
    next hstop =>
      intro h
      rcases ih _ m h with h' | h'
      · rcases scanLines_mem cs needle (relStr root f) cap _ acc m h' with h'' | h''
        · exact Or.inl h''
        · exact Or.inr ⟨f, by simp, h''⟩
      · obtain ⟨f', hf', hp'⟩ := h'
        exact Or.inr ⟨f', by simp [hf'], hp'⟩

theorem runPythonFallback_cap_le (fs : FS) (root : PathC) (needle : Str)
    (paths : List PathC) (globs : List Str) (cs : Bool) (k : Nat) (hk : 1 ≤ k) :
    (runPythonFallback fs root needle paths globs cs (some k)).length ≤ k :=
  scanFiles_cap fs root cs needle k (iterFiles fs paths globs) [] (by simpa using hk)

theorem runPythonFallback_none (fs : FS) (root : PathC) (needle : Str)
    (paths : List PathC) (globs : List Str) (cs : Bool) :
    runPythonFallback fs root needle paths globs cs none =
      fallbackAll fs root needle paths globs cs := by
  simpa [runPythonFallback, fallbackAll] using
    scanFiles_none fs root cs needle (iterFiles fs paths globs) []

theorem runPythonFallback_mem (fs : FS) (root : PathC) (needle : Str)
    (paths : List PathC) (globs : List Str) (cs : Bool) (cap : Option Nat)
    (m : Match) (h : m ∈ runPythonFallback fs root needle paths globs cs cap) :
    ∃ f ∈ iterFiles fs paths globs, m.path = relStr root f := by
  rcases scanFiles_mem fs root cs needle cap (iterFiles fs paths globs) [] m h with h' | h'
  · cases h'
  · exact h'

/-! ### Branch lemmas for `mainModel` -/

theorem mainModel_noPaths (fs : FS) (root : PathC) (rgAv : Bool) (rc : Nat)
    (se : Str) (so : List Str) (args : Args)
    (hsp : effectiveSearchPaths fs root args = none) :
    mainModel fs root rgAv rc se so args = .usageNoPaths := by
  simp [mainModel, hsp]

theorem mainModel_rg_ok (fs : FS) (root : PathC) (rc : Nat) (se : Str)
    (so : List Str) (args : Args) (ps : List PathC)
    (hsp : effectiveSearchPaths fs root args = some ps) (hrc : rc = 0 ∨ rc = 1) :
    mainModel fs root true rc se so args =
      .ok (runRgMatches (effectiveMaxHits args.maxArg) so) := by
  have hb : (rc == 0 || rc == 1) = true := by
    rcases hrc with h | h <;> simp [h]
  simp [mainModel, hsp, hb]

theorem mainModel_rg_fail (fs : FS) (root : PathC) (rc : Nat) (se : Str)
    (so : List Str) (args : Args) (ps : List PathC)
    (hsp : effectiveSearchPaths fs root args = some ps) (h0 : rc ≠ 0) (h1 : rc ≠ 1) :
    mainModel fs root true rc se so args = .backendFailure (surfaceErr rc se) := by
  have hb : (rc == 0 || rc == 1) = false := by simp [h0, h1]
  simp [mainModel, hsp, hb]

theorem mainModel_fb_regex (fs : FS) (root : PathC) (rc : Nat) (se : Str)
    (so : List Str) (args : Args) (ps : List PathC)
    (hsp : effectiveSearchPaths fs root args = some ps) (hre : args.regex = true) :
    mainModel fs root false rc se so args = .usageRegexUnsupported := by
  simp [mainModel, hsp, hre]

theorem mainModel_fb_ok (fs : FS) (root : PathC) (rc : Nat) (se : Str)
    (so : List Str) (args : Args) (ps : List PathC)
    (hsp : effectiveSearchPaths fs root args = some ps) (hre : args.regex = false) :
    mainModel fs root false rc se so args =
      .ok (runPythonFallback fs root args.needle ps (effectiveGlobs args)
        args.caseSensitive (effectiveMaxHits args.maxArg)) := by
  simp [mainModel, hsp, hre]

theorem effectiveMaxHits_pos (m : Int) (h : 0 < m) :
    effectiveMaxHits m = some m.toNat := by
  simp only [effectiveMaxHits]
  rw [if_neg (by omega)]
  congr 1
  omega

theorem effectiveMaxHits_neg (m : Int) (h : m < 0) :
    effectiveMaxHits m = some 1 := by
  simp only [effectiveMaxHits]
  rw [if_neg (by omega)]
  congr 1
  omega

/-- Inversion: a successful run is either the external adapter's parse of the
subprocess stdout under the effective cap, or the fallback scan. -/
theorem mainModel_ok_inv (fs : FS) (root : PathC) (rgAv : Bool) (rc : Nat)
    (se : Str) (so : List Str) (args : Args) (ms : List Match)
    (hok : mainModel fs root rgAv rc se so args = .ok ms) :
    ∃ ps, effectiveSearchPaths fs root args = some ps ∧
      ((rgAv = true ∧ (rc = 0 ∨ rc = 1) ∧
          ms = runRgMatches (effectiveMaxHits args.maxArg) so)
     ∨ (rgAv = false ∧ args.regex = false ∧
          ms = runPythonFallback fs root args.needle ps (effectiveGlobs args)
            args.caseSensitive (effectiveMaxHits args.maxArg))) := by
  cases hsp : effectiveSearchPaths fs root args with
  | none => rw [mainModel_noPaths fs root rgAv rc se so args hsp] at hok; cases hok
  | some ps =>
    refine ⟨ps, rfl, ?_⟩
    cases rgAv with
    | true =>
      by_cases hrc : rc = 0 ∨ rc = 1
      · rw [mainModel_rg_ok fs root rc se so args ps hsp hrc] at hok
        left
        exact ⟨rfl, hrc, by injection hok with h; rw [h]⟩
      · push_neg at hrc
        rw [mainModel_rg_fail fs root rc se so args ps hsp hrc.1 hrc.2] at hok
        cases hok
    | false =>
      cases hre : args.regex with
      | true => rw [mainModel_fb_regex fs root rc se so args ps hsp hre] at hok; cases hok
      | false =>
        rw [mainModel_fb_ok fs root rc se so args ps hsp hre] at hok
        right
        exact ⟨rfl, rfl, by injection hok with h; rw [h]⟩

/-! ### Claim C1 -/

/-- C1: for a request with a positive max-hit cap, the bound backend
(external adapter or fallback scanner) returns at most `cap` matches; for a
request with cap 0 the match list is unlimited — the adapter returns every
parsed stdout record and the fallback scan returns every match of every
enumerated file, none dropped. -/
theorem claim_C1 (fs : FS) (root : PathC) (rgAv : Bool) (rc : Nat) (se : Str)
    (so : List Str) (args : Args) (ms : List Match) :
    (0 < args.maxArg → mainModel fs root rgAv rc se so args = .ok ms →
      ms.length ≤ args.maxArg.toNat)
  ∧ (args.maxArg = 0 → mainModel fs root rgAv rc se so args = .ok ms →
      (rgAv = true → ms = so.filterMap parseRgLine)
    ∧ (rgAv = false → ∀ ps, effectiveSearchPaths fs root args = some ps →
        ms = fallbackAll fs root args.needle ps (effectiveGlobs args)
          args.caseSensitive)) := by
  constructor
  · intro hpos hok
    obtain ⟨ps, hsp, hcase⟩ := mainModel_ok_inv fs root rgAv rc se so args ms hok
    have hmax : effectiveMaxHits args.maxArg = some args.maxArg.toNat :=
      effectiveMaxHits_pos args.maxArg hpos
    have hk : 1 ≤ args.maxArg.toNat := by omega
    rcases hcase with ⟨_, _, hms⟩ | ⟨_, _, hms⟩
    · rw [hms, hmax]
      exact runRgMatches_cap_le args.maxArg.toNat hk so
    · rw [hms, hmax]
      exact runPythonFallback_cap_le fs root args.needle ps (effectiveGlobs args)
        args.caseSensitive args.maxArg.toNat hk
  · intro hzero hok
    obtain ⟨ps, hsp, hcase⟩ := mainModel_ok_inv fs root rgAv rc se so args ms hok
    have hmax : effectiveMaxHits args.maxArg = none := by
      simp [effectiveMaxHits, hzero]
    constructor
    · intro hav
      rcases hcase with ⟨_, _, hms⟩ | ⟨hav', _, _⟩
      · rw [hms, hmax]; exact runRgMatches_none so
      · rw [hav] at hav'; cases hav'
    · intro hav ps' hsp'
      rcases hcase with ⟨hav', _, _⟩ | ⟨_, _, hms⟩
      · rw [hav] at hav'; cases hav'
      · rw [hsp'] at hsp
        injection hsp with hps
        rw [hms, hmax, hps]
        exact runPythonFallback_none fs root args.needle ps (effectiveGlobs args)
          args.caseSensitive

theorem claim_C1_witness :
    0 < argsDemoCap.maxArg
  ∧ mainModel fsDemo [chars "r"] true 0 [] soDemo argsDemoCap
      = .ok (runRgMatches (some 2) soDemo)
  ∧ (runRgMatches (some 2) soDemo).length ≤ argsDemoCap.maxArg.toNat :=
  ⟨by decide, by decide,
    (claim_C1 fsDemo [chars "r"] true 0 [] soDemo argsDemoCap
      (runRgMatches (some 2) soDemo)).1 (by decide) (by decide)⟩

/-! ### Claim C10 -/

/-- C10: a negative max-hit argument is clamped up to an effective cap of 1:
the run is not rejected and behaves exactly like a cap-1 request, so at most
one match is returned. -/
theorem claim_C10 (fs : FS) (root : PathC) (rgAv : Bool) (rc : Nat) (se : Str)
    (so : List Str) (args : Args) (hneg : args.maxArg < 0) :
    effectiveMaxHits args.maxArg = some 1
  ∧ (∀ ms, mainModel fs root rgAv rc se so args = .ok ms → ms.length ≤ 1)
  ∧ mainModel fs root rgAv rc se so args
      = mainModel fs root rgAv rc se so
          ⟨args.needle, args.pathsArg, args.globArg, args.allFiles, args.regex,
           args.caseSensitive, 1⟩ := by
  have hmax : effectiveMaxHits args.maxArg = some 1 := effectiveMaxHits_neg args.maxArg hneg
  refine ⟨hmax, ?_, ?_⟩
  · intro ms hok
    obtain ⟨ps, hsp, hcase⟩ := mainModel_ok_inv fs root rgAv rc se so args ms hok
    rcases hcase with ⟨_, _, hms⟩ | ⟨_, _, hms⟩
    · rw [hms, hmax]
      exact runRgMatches_cap_le 1 (by omega) so
    · rw [hms, hmax]
      exact runPythonFallback_cap_le fs root args.needle ps (effectiveGlobs args)
        args.caseSensitive 1 (by omega)
  · have hone : effectiveMaxHits (1 : Int) = some 1 := by decide
    simp only [mainModel, effectiveSearchPaths, relPathsOf, effectiveGlobs, hmax, hone]

theorem claim_C10_witness :
    argsDemoNeg.maxArg < 0
  ∧ effectiveMaxHits argsDemoNeg.maxArg = some 1
  ∧ mainModel fsDemo [chars "r"] false 0 [] [] argsDemoNeg
      = .ok [⟨chars "a.txt", 1, chars "one"⟩] :=
  ⟨by decide,
    (claim_C10 fsDemo [chars "r"] false 0 [] [] argsDemoNeg (by decide)).1,
    by decide⟩

/-! ### Claims C3, C4, C7 -/

theorem esp_explicit_empty (fs : FS) (root : PathC) (args : Args) (l : List PathC)
    (hp : args.pathsArg = some l)
    (hv : existingPaths fs root (relPathsOf args) = []) :
    effectiveSearchPaths fs root args = none := by
  simp [effectiveSearchPaths, hv, hp]

theorem esp_default_empty (fs : FS) (root : PathC) (args : Args)
    (hp : args.pathsArg = none)
    (hv : existingPaths fs root DEFAULT_PATHS = []) :
    effectiveSearchPaths fs root args = some [root] := by
  have hrel : relPathsOf args = DEFAULT_PATHS := by simp [relPathsOf, hp]
  simp [effectiveSearchPaths, hrel, hv, hp]

theorem esp_nonempty (fs : FS) (root : PathC) (args : Args)
    (hv : existingPaths fs root (relPathsOf args) ≠ []) :
    effectiveSearchPaths fs root args =
      some (existingPaths fs root (relPathsOf args)) := by
  cases hv' : existingPaths fs root (relPathsOf args) with
  | nil => exact absurd hv' hv
  | cons a t => simp [effectiveSearchPaths, hv']

theorem esp_none_inv (fs : FS) (root : PathC) (args : Args)
    (h : effectiveSearchPaths fs root args = none) :
    existingPaths fs root (relPathsOf args) = [] ∧ args.pathsArg ≠ none := by
  cases hv : existingPaths fs root (relPathsOf args) with
  | nil =>
    cases hp : args.pathsArg with
    | none => rw [esp_default_empty fs root args hp (by rwa [← (by simp [relPathsOf, hp] :
        relPathsOf args = DEFAULT_PATHS)])] at h; cases h
    | some l => exact ⟨rfl, by simp [hp]⟩
  | cons a t =>
    rw [esp_nonempty fs root args (by simp [hv])] at h
    cases h

/-- C4: if the caller explicitly supplied path specs and none survives
validation, the run is the fatal "no valid search paths" usage error (exit
code 2, no matches); with the default spec list and none surviving, the
boundary itself silently becomes the sole search target and the run exits 0
(whichever backend is bound, provided it does not itself fail). -/
theorem claim_C4 (fs : FS) (root : PathC) (rgAv : Bool) (rc : Nat) (se : Str)
    (so : List Str) (args : Args) :
    (∀ l, args.pathsArg = some l →
       existingPaths fs root (relPathsOf args) = [] →
       mainModel fs root rgAv rc se so args = .usageNoPaths
     ∧ exitCode (mainModel fs root rgAv rc se so args) = 2)
  ∧ (args.pathsArg = none → existingPaths fs root DEFAULT_PATHS = [] →
       effectiveSearchPaths fs root args = some [root]
     ∧ ((rgAv = true → rc = 0 ∨ rc = 1) → (rgAv = false → args.regex = false) →
         exitCode (mainModel fs root rgAv rc se so args) = 0)) := by
  constructor
  · intro l hp hv
    have h := mainModel_noPaths fs root rgAv rc se so args
      (esp_explicit_empty fs root args l hp hv)
    exact ⟨h, by rw [h]; rfl⟩
  · intro hp hv
    have hsp := esp_default_empty fs root args hp hv
    refine ⟨hsp, ?_⟩
    intro hrg hfb
    cases rgAv with
    | true =>
      rw [mainModel_rg_ok fs root rc se so args [root] hsp (hrg rfl)]
      rfl
    | false =>
      rw [mainModel_fb_ok fs root rc se so args [root] hsp (hfb rfl)]
      rfl

theorem claim_C4_witness :
    argsDemoDflt.pathsArg = none
  ∧ existingPaths fsDemo [chars "r"] DEFAULT_PATHS = []
  ∧ effectiveSearchPaths fsDemo [chars "r"] argsDemoDflt = some [[chars "r"]]
  ∧ exitCode (mainModel fsDemo [chars "r"] false 0 [] [] argsDemoDflt) = 0 :=
  ⟨rfl, by decide,
    ((claim_C4 fsDemo [chars "r"] false 0 [] [] argsDemoDflt).2 rfl (by decide)).1,
    ((claim_C4 fsDemo [chars "r"] false 0 [] [] argsDemoDflt).2 rfl (by decide)).2
      (fun h => by cases h) (fun _ => rfl)⟩

/-- C3 as stated is false: with regex mode set, the external engine
unavailable, and explicitly supplied paths none of which survives
validation, the run fails with the no-valid-paths usage error, not the
unsupported-mode one (path validation precedes the regex check in `main`). -/
theorem claim_C3_counterexample :
    mainModel fsDemo [chars "r"] false 0 [] [] argsC3 = .usageNoPaths
  ∧ MainResult.usageNoPaths ≠ MainResult.usageRegexUnsupported := by
  constructor
  · decide
  · decide

/-- C3 (amended): with regex mode set and the external engine unavailable,
the run always exits with usage-error code 2 before any scanning — no
match list is ever produced, so the needle is never reinterpreted as a
literal search — and the error is specifically the unsupported-mode one
whenever the request survives path validation (defaulted specs, or at
least one validated path). -/
theorem claim_C3 (fs : FS) (root : PathC) (rc : Nat) (se : Str)
    (so : List Str) (args : Args) (hre : args.regex = true) :
    exitCode (mainModel fs root false rc se so args) = 2
  ∧ (∀ ms, mainModel fs root false rc se so args ≠ .ok ms)
  ∧ ((args.pathsArg = none ∨ existingPaths fs root (relPathsOf args) ≠ []) →
      mainModel fs root false rc se so args = .usageRegexUnsupported) := by
  have hmain : ∀ r, mainModel fs root false rc se so args = r →
      r = .usageNoPaths ∨ r = .usageRegexUnsupported := by
    intro r hr
    cases hsp : effectiveSearchPaths fs root args with
    | none => rw [mainModel_noPaths fs root false rc se so args hsp] at hr; exact Or.inl hr.symm
    | some ps =>
      rw [mainModel_fb_regex fs root rc se so args ps hsp hre] at hr
      exact Or.inr hr.symm
  refine ⟨?_, ?_, ?_⟩
  · rcases hmain _ rfl with h | h <;> rw [h] <;> rfl
  · intro ms hok
    rcases hmain _ hok with h | h <;> simp at h
  · intro hcase
    cases hsp : effectiveSearchPaths fs root args with
    | none =>
      obtain ⟨hv, hp⟩ := esp_none_inv fs root args hsp
      rcases hcase with hc | hc
      · exact absurd hc hp
      · exact absurd hv hc
    | some ps => exact mainModel_fb_regex fs root rc se so args ps hsp hre

theorem claim_C3_witness :
    argsC3w.regex = true
  ∧ exitCode (mainModel fsDemo [chars "r"] false 0 [] [] argsC3w) = 2
  ∧ mainModel fsDemo [chars "r"] false 0 [] [] argsC3w
      = .usageRegexUnsupported :=
  ⟨rfl,
    (claim_C3 fsDemo [chars "r"] 0 [] [] argsC3w rfl).1,
    (claim_C3 fsDemo [chars "r"] 0 [] [] argsC3w rfl).2.2 (Or.inl rfl)⟩

/-- C7: with the external engine bound and the request past validation,
subprocess exit statuses 0 and 1 are both successful runs (the overall
process exits 0 with the parsed match list); any other status is a fatal
backend failure that exits 1 and surfaces the subprocess's stripped
diagnostic output (falling back to a formatted message only when the
diagnostic stream is blank). -/
theorem claim_C7 (fs : FS) (root : PathC) (rc : Nat) (se : Str) (so : List Str)
    (args : Args) (ps : List PathC)
    (hsp : effectiveSearchPaths fs root args = some ps) :
    ((rc = 0 ∨ rc = 1) →
       mainModel fs root true rc se so args
         = .ok (runRgMatches (effectiveMaxHits args.maxArg) so)
     ∧ exitCode (mainModel fs root true rc se so args) = 0)
  ∧ (rc ≠ 0 → rc ≠ 1 →
       mainModel fs root true rc se so args = .backendFailure (surfaceErr rc se)
     ∧ exitCode (mainModel fs root true rc se so args) = 1)
  ∧ (pyStrip se ≠ [] → surfaceErr rc se = pyStrip se) := by
  refine ⟨?_, ?_, ?_⟩
  · intro hrc
    have h := mainModel_rg_ok fs root rc se so args ps hsp hrc
    exact ⟨h, by rw [h]; rfl⟩
  · intro h0 h1
    have h := mainModel_rg_fail fs root rc se so args ps hsp h0 h1
    exact ⟨h, by rw [h]; rfl⟩
  · intro hne
    simp only [surfaceErr]
    rw [if_neg (by simpa using hne)]

theorem claim_C7_witness :
    effectiveSearchPaths fsDemo [chars "r"] argsDemoDflt = some [[chars "r"]]
  ∧ exitCode (mainModel fsDemo [chars "r"] true 0 [] soDemo argsDemoDflt) = 0
  ∧ exitCode (mainModel fsDemo [chars "r"] true 2 (chars " boom ") soDemo argsDemoDflt) = 1
  ∧ mainModel fsDemo [chars "r"] true 2 (chars " boom ") soDemo argsDemoDflt
      = .backendFailure (chars "boom") :=
  ⟨by decide,
    ((claim_C7 fsDemo [chars "r"] 0 [] soDemo argsDemoDflt [[chars "r"]]
        (by decide)).1 (Or.inl rfl)).2,
    ((claim_C7 fsDemo [chars "r"] 2 (chars " boom ") soDemo argsDemoDflt [[chars "r"]]
        (by decide)).2.1 (by decide) (by decide)).2,
    by
      rw [((claim_C7 fsDemo [chars "r"] 2 (chars " boom ") soDemo argsDemoDflt [[chars "r"]]
        (by decide)).2.1 (by decide) (by decide)).1]
      decide⟩

/-! ### Claim C2 -/

/-- C2: path validation returns exactly (the resolutions of) those specs
whose join-and-resolve against the boundary both stays within the boundary
and exists on disk; in particular any spec whose resolution escapes the
boundary — by whatever relative-traversal construction — is excluded.
Validation is a pure function of boundary, specs and filesystem, hence
deterministic. -/
theorem claim_C2 (fs : FS) (root : PathC) (specs : List PathC) :
    existingPaths fs root specs
      = (specs.filter (fun r => compPre root (resolveSpec root r)
            && pathExists fs (resolveSpec root r))).map (resolveSpec root)
  ∧ ∀ r ∈ specs, compPre root (resolveSpec root r) = false →
      resolveSpec root r ∉ existingPaths fs root specs := by
  have heq : ∀ l : List PathC, existingPaths fs root l
      = (l.filter (fun r => compPre root (resolveSpec root r)
            && pathExists fs (resolveSpec root r))).map (resolveSpec root) := by
    intro l
    induction l with
    | nil => rfl
    | cons a t ih =>
      simp only [existingPaths, List.filterMap_cons] at ih ⊢
      by_cases h : (compPre root (resolveSpec root a)
          && pathExists fs (resolveSpec root a)) = true
      · simp only [h, if_true, List.filter_cons, List.map_cons, ih]
      · simp only [Bool.not_eq_true] at h
        simp only [h, Bool.false_eq_true, if_false, List.filter_cons, ih]
  refine ⟨heq specs, ?_⟩
  intro r hr hesc hmem
  rw [heq specs] at hmem
  obtain ⟨r', hr', heqr⟩ := List.mem_map.1 hmem
  have hf := List.of_mem_filter hr'
  rw [Bool.and_eq_true] at hf
  rw [heqr] at hf
  rw [hf.1] at hesc
  cases hesc

theorem claim_C2_witness :
    ([chars "..", chars "secret"] : PathC) ∈ specsEscape
  ∧ compPre [chars "r", chars "v"]
      (resolveSpec [chars "r", chars "v"] [chars "..", chars "secret"]) = false
  ∧ resolveSpec [chars "r", chars "v"] [chars "..", chars "secret"]
      ∉ existingPaths fsEscape [chars "r", chars "v"] specsEscape :=
  ⟨by decide, by decide,
    (claim_C2 fsEscape [chars "r", chars "v"] specsEscape).2 _ (by decide) (by decide)⟩

/-! ### Claim C8 -/

theorem enumFrom_filter_fst (a b : Nat) :
    ∀ (ls : List Str) (i : Nat),
      ((enumFrom i ls).filter (fun p => a ≤ p.1 ∧ p.1 ≤ b)).map Prod.fst
        = List.range' (max i a) (min (i + ls.length) (b + 1) - max i a) := by
  intro ls
  induction ls with
  | nil =>
    intro i
    have hc : min (i + ([] : List Str).length) (b + 1) - max i a = 0 := by
      simp only [List.length_nil]; omega
    simp [enumFrom, hc]
  | cons s t ih =>
    intro i
    simp only [enumFrom, List.filter_cons]
    by_cases h : a ≤ i ∧ i ≤ b
    · rw [if_pos (by simpa using h)]
      simp only [List.map_cons]
      rw [ih (i + 1)]
      have hmax : max i a = i := by omega
      have hmax' : max (i + 1) a = i + 1 := by omega
      have hcount : min (i + (s :: t).length) (b + 1) - max i a
          = (min (i + 1 + t.length) (b + 1) - max (i + 1) a) + 1 := by
        simp only [List.length_cons]; omega
      rw [hcount, hmax', hmax, List.range'_succ]
    · rw [if_neg (by simpa using h)]
      rw [ih (i + 1)]
      rcases Nat.lt_or_ge i a with hia | hia
      · have h1 : max (i + 1) a = max i a := by omega
        have h2 : min (i + 1 + t.length) (b + 1) - max (i + 1) a
            = min (i + (s :: t).length) (b + 1) - max i a := by
          simp only [List.length_cons]; omega
        rw [h2, h1]
      · have hbi : b < i := by
          rcases Nat.lt_or_ge b i with hb | hb
          · exact hb
          · exact absurd ⟨hia, hb⟩ h
        have h1 : min (i + 1 + t.length) (b + 1) - max (i + 1) a = 0 := by omega
        have h2 : min (i + (s :: t).length) (b + 1) - max i a = 0 := by
          simp only [List.length_cons]; omega
        rw [h1, h2]
        rfl

theorem enumFrom_snd (ls : List Str) : ∀ (i : Nat) (p : Nat × Str),
    p ∈ enumFrom i ls → i ≤ p.1 ∧ p.2 = ls.getD (p.1 - i) [] := by
  induction ls with
  | nil => intro i p h; simp [enumFrom] at h
  | cons s t ih =>
    intro i p h
    simp only [enumFrom, List.mem_cons] at h
    rcases h with h | h
    · rw [h]; exact ⟨Nat.le_refl i, by simp⟩
    · obtain ⟨h1, h2⟩ := ih (i + 1) p h
      refine ⟨by omega, ?_⟩
      rw [h2]
      have hs : p.1 - i = (p.1 - (i + 1)) + 1 := by omega
      rw [hs, List.getD_cons_succ]

/-- C8: the context window is the ordered, contiguous, strictly increasing
line range from `max(1, line - radius)` to `line + radius` clipped at
end-of-file (rendered as `List.range'` of that interval), and each entry
carries the text of exactly that 1-based line, newline-stripped.  For a
match on line 1 with radius 2 the range is lines 1–3; line numbers are
never below 1. -/
theorem claim_C8 (lines : List Str) (lineNo around : Nat) :
    (readContextWindow lines lineNo around).map Prod.fst
      = List.range' (max 1 (lineNo - around))
          (min lines.length (lineNo + around) + 1 - max 1 (lineNo - around))
  ∧ ∀ p ∈ readContextWindow lines lineNo around,
      p.2 = rstripNl (lines.getD (p.1 - 1) []) := by
  constructor
  · have h := enumFrom_filter_fst (max 1 (lineNo - around)) (lineNo + around) lines 1
    simp only [readContextWindow, List.map_map]
    have hfun : (Prod.fst ∘ fun p : Nat × Str => (p.1, rstripNl p.2)) = Prod.fst := rfl
    rw [hfun, h, ← max_assoc, max_self]
    have hc : min (1 + lines.length) (lineNo + around + 1) - max 1 (lineNo - around)
        = min lines.length (lineNo + around) + 1 - max 1 (lineNo - around) := by omega
    rw [hc]
  · intro p hp
    simp only [readContextWindow, List.mem_map] at hp
    obtain ⟨q, hq, hqe⟩ := hp
    have hqm := List.mem_filter.1 hq
    obtain ⟨h1, h2⟩ := enumFrom_snd lines 1 q hqm.1
    rw [← hqe]
    show rstripNl q.2 = rstripNl (lines.getD (q.1 - 1) [])
    rw [h2]

theorem claim_C8_witness :
    (readContextWindow linesDemo 1 2).map Prod.fst = [1, 2, 3]
  ∧ (1, chars "one") ∈ readContextWindow linesDemo 1 2
  ∧ ((1, chars "one") : Nat × Str).2
      = rstripNl (linesDemo.getD (((1, chars "one") : Nat × Str).1 - 1) []) :=
  ⟨(claim_C8 linesDemo 1 2).1.trans (by decide), by decide,
    (claim_C8 linesDemo 1 2).2 (1, chars "one") (by decide)⟩

/-! ### Parsing lemmas and claim C6 -/

theorem digitChar_isDigit (d : Nat) (h : d < 10) : (digitChar d).isDigit = true := by
  interval_cases d <;> decide

theorem digitChar_val (d : Nat) (h : d < 10) : (digitChar d).toNat - 48 = d := by
  interval_cases d <;> decide

theorem natToStrGo_fuel : ∀ fuel fuel' n : Nat, n < fuel → n < fuel' →
    natToStrGo fuel n = natToStrGo fuel' n := by
  intro fuel
  induction fuel with
  | zero => intro fuel' n h _; omega
  | succ f ih =>
    intro fuel' n h h'
    cases fuel' with
    | zero => omega
    | succ f' =>
      simp only [natToStrGo]
      by_cases hn : n < 10
      · rw [if_pos hn, if_pos hn]
      · rw [if_neg hn, if_neg hn]
        rw [ih f' (n / 10) (by omega) (by omega)]

/-- Defining equation of `natToStr`. -/
theorem natToStr_eq (n : Nat) : natToStr n
    = if n < 10 then [digitChar n] else natToStr (n / 10) ++ [digitChar (n % 10)] := by
  have h1 : natToStr n = if n < 10 then [digitChar n]
      else natToStrGo n (n / 10) ++ [digitChar (n % 10)] := rfl
  rw [h1]
  by_cases hn : n < 10
  · rw [if_pos hn, if_pos hn]
  · rw [if_neg hn, if_neg hn]
    rw [natToStrGo_fuel n (n / 10 + 1) (n / 10) (by omega) (by omega)]
    rfl

theorem natToStr_digits (n : Nat) : ∀ c ∈ natToStr n, c.isDigit = true := by
  induction n using Nat.strong_induction_on with
  | _ n ih =>
    rw [natToStr_eq]
    by_cases h : n < 10
    · rw [if_pos h]
      intro c hc
      simp only [List.mem_singleton] at hc
      rw [hc]
      exact digitChar_isDigit n h
    · rw [if_neg h]
      intro c hc
      rcases List.mem_append.1 hc with h' | h'
      · exact ih (n / 10) (by omega) c h'
      · simp only [List.mem_singleton] at h'
        rw [h']
        exact digitChar_isDigit (n % 10) (Nat.mod_lt n (by omega))

theorem natToStr_ne_nil (n : Nat) : natToStr n ≠ [] := by
  rw [natToStr_eq]
  by_cases h : n < 10
  · rw [if_pos h]; simp
  · rw [if_neg h]; simp

theorem natToStr_val (n : Nat) :
    (natToStr n).foldl (fun a c => 10 * a + (c.toNat - 48)) 0 = n := by
  induction n using Nat.strong_induction_on with
  | _ n ih =>
    rw [natToStr_eq]
    by_cases h : n < 10
    · rw [if_pos h]
      simp only [List.foldl_cons, List.foldl_nil]
      rw [digitChar_val n h]
      omega
    · rw [if_neg h]
      rw [List.foldl_append]
      rw [ih (n / 10) (by omega)]
      simp only [List.foldl_cons, List.foldl_nil]
      rw [digitChar_val (n % 10) (Nat.mod_lt n (by omega))]
      omega

theorem parseNat_natToStr (n : Nat) : parseNat (natToStr n) = some n := by
  simp only [parseNat]
  rw [if_neg (by simp [natToStr_ne_nil n])]
  rw [if_pos (by simpa [List.all_eq_true] using natToStr_digits n)]
  rw [natToStr_val n]

theorem natToStr_no_colon (i : Nat) : ':' ∉ natToStr i := by
  intro h
  exact absurd (natToStr_digits i ':' h) (by decide)

theorem natToStr_no_nl (i : Nat) : '\n' ∉ natToStr i := by
  intro h
  exact absurd (natToStr_digits i '\n' h) (by decide)

theorem splitFirst_not_mem (t : Char) : ∀ s : Str, t ∉ s → splitFirst t s = none := by
  intro s
  induction s with
  | nil => intro _; rfl
  | cons c rest ih =>
    intro h
    simp only [List.mem_cons, not_or] at h
    simp only [splitFirst]
    rw [if_neg (by simp only [beq_iff_eq]; exact fun hh => h.1 hh.symm)]
    rw [ih h.2]

theorem splitFirst_append (t : Char) : ∀ (p rest : Str), t ∉ p →
    splitFirst t (p ++ t :: rest) = some (p, rest) := by
  intro p
  induction p with
  | nil => intro rest _; simp [splitFirst]
  | cons c q ih =>
    intro rest h
    simp only [List.mem_cons, not_or] at h
    simp only [List.cons_append, splitFirst, List.append_eq]
    rw [if_neg (by simp only [beq_iff_eq]; exact fun hh => h.1 hh.symm)]
    rw [ih rest h.2]

theorem splitFirst_eq (t : Char) : ∀ (s a b : Str), splitFirst t s = some (a, b) →
    s = a ++ t :: b ∧ t ∉ a := by
  intro s
  induction s with
  | nil => intro a b h; cases h
  | cons c rest ih =>
    intro a b h
    simp only [splitFirst] at h
    by_cases hc : (c == t) = true
    · rw [if_pos hc] at h
      injection h with h'
      rw [Prod.mk.injEq] at h'
      obtain ⟨ha, hb⟩ := h'
      subst ha
      subst hb
      simp only [beq_iff_eq] at hc
      rw [hc]
      exact ⟨rfl, by simp⟩
    · rw [if_neg hc] at h
      cases hsp : splitFirst t rest with
      | none => simp only [hsp] at h; cases h
      | some ab =>
        obtain ⟨a2, b2⟩ := ab
        simp only [hsp] at h
        injection h with h'
        rw [Prod.mk.injEq] at h'
        obtain ⟨ha, hb⟩ := h'
        subst ha
        subst hb
        obtain ⟨h1, h2⟩ := ih a2 b2 hsp
        constructor
        · rw [h1]; rfl
        · simp only [List.mem_cons, not_or]
          exact ⟨fun hh => hc (by simp [hh]), h2⟩

theorem pySplit2_short (t : Char) (s : Str) (h : s.count t < 2) :
    (∃ x, pySplit2 t s = [x]) ∨ ∃ x y, pySplit2 t s = [x, y] := by
  cases h1 : splitFirst t s with
  | none => exact Or.inl ⟨s, by simp only [pySplit2, h1]⟩
  | some ab =>
    obtain ⟨a, b⟩ := ab
    obtain ⟨hs, _⟩ := splitFirst_eq t s a b h1
    have hcb : b.count t = 0 := by
      rw [hs] at h
      simp at h
      omega
    refine Or.inr ⟨a, b, ?_⟩
    simp only [pySplit2, h1, splitFirst_not_mem t b (List.count_eq_zero.1 hcb)]

theorem parseCore_malformed (s : Str) (h : s.count ':' < 2) : parseCore s = none := by
  rcases pySplit2_short ':' s h with ⟨x, hx⟩ | ⟨x, y, hxy⟩
  · simp only [parseCore, hx]
  · simp only [parseCore, hxy]

theorem rstripNl_no_nl (s : Str) (h : '\n' ∉ s) : rstripNl s = s := by
  simp only [rstripNl]
  have hd : s.reverse.dropWhile (fun x => x == '\n') = s.reverse := by
    cases hr : s.reverse with
    | nil => rfl
    | cons c tl =>
      have hcmem : c ∈ s := by
        rw [← List.mem_reverse, hr]
        simp
      have hc : ¬ ((c == '\n') = true) := by
        simp only [beq_iff_eq]
        exact fun hcn => h (hcn ▸ hcmem)
      rw [List.dropWhile_cons, if_neg hc]
  rw [hd, List.reverse_reverse]

theorem rstripNl_append (xs ys : Str) (c : Char) (hc : c ≠ '\n')
    (hlast : xs.getLast? = some c) :
    rstripNl (xs ++ ys) = xs ++ rstripNl ys := by
  simp only [rstripNl, List.reverse_append]
  rw [List.dropWhile_append]
  by_cases he : (ys.reverse.dropWhile (fun x => x == '\n')).isEmpty = true
  · rw [if_pos he]
    have hxs : xs.reverse.dropWhile (fun x => x == '\n') = xs.reverse := by
      cases hxr : xs.reverse with
      | nil => rfl
      | cons hd tl =>
        have hh : hd = c := by
          have hrev := List.head?_reverse xs
          rw [hxr, hlast] at hrev
          injection hrev
        rw [List.dropWhile_cons, if_neg (by simp [hh, hc])]
    rw [hxs, List.reverse_reverse]
    have hys : ys.reverse.dropWhile (fun x => x == '\n') = [] := List.isEmpty_iff.1 he
    rw [hys]
    simp
  · rw [if_neg he]
    rw [List.reverse_append, List.reverse_reverse]

theorem parseCore_wf (p : Str) (i : Nat) (t : Str) (hp : ':' ∉ p) :
    parseCore (p ++ ':' :: (natToStr i ++ ':' :: t)) = some ⟨p, i, t⟩ := by
  simp only [parseCore, pySplit2,
    splitFirst_append ':' p (natToStr i ++ ':' :: t) hp,
    splitFirst_append ':' (natToStr i) t (natToStr_no_colon i),
    parseNat_natToStr i]

theorem parseRgLine_wf (p : Str) (i : Nat) (t : Str) (hp : ':' ∉ p) :
    parseRgLine (p ++ ':' :: (natToStr i ++ ':' :: t)) = some ⟨p, i, rstripNl t⟩ := by
  have hx : p ++ ':' :: (natToStr i ++ ':' :: t)
      = ((p ++ ':' :: natToStr i) ++ [':']) ++ t := by simp
  have hlast : ((p ++ ':' :: natToStr i) ++ [':']).getLast? = some ':' :=
    List.getLast?_concat _
  have hstrip : rstripNl (((p ++ ':' :: natToStr i) ++ [':']) ++ t)
      = ((p ++ ':' :: natToStr i) ++ [':']) ++ rstripNl t :=
    rstripNl_append _ t ':' (by decide) hlast
  rw [parseRgLine, hx, hstrip]
  have hy : ((p ++ ':' :: natToStr i) ++ [':']) ++ rstripNl t
      = p ++ ':' :: (natToStr i ++ ':' :: rstripNl t) := by simp
  rw [hy, parseCore_wf p i (rstripNl t) hp]

/-- C6: a well-formed engine record `path:line:rest` — with a colon-free
path field and `rest` arbitrary, colons included — parses into exactly the
three fields, the match text preserved verbatim minus trailing newlines; a
line with fewer than two colon separators yields no `Match`; and the
adapter's stdout loop simply skips unparsable lines (its result is the
`filterMap` of the parser over the stdout lines), never aborting. -/
theorem claim_C6 :
    (∀ (p : Str) (i : Nat) (t : Str), ':' ∉ p →
       parseRgLine (p ++ ':' :: (natToStr i ++ ':' :: t)) = some ⟨p, i, rstripNl t⟩)
  ∧ (∀ s : Str, (rstripNl s).count ':' < 2 → parseRgLine s = none)
  ∧ (∀ so : List Str, runRgMatches none so = so.filterMap parseRgLine) :=
  ⟨parseRgLine_wf,
   fun s h => parseCore_malformed (rstripNl s) h,
   runRgMatches_none⟩

theorem claim_C6_witness :
    (':' ∉ chars "a/b.txt")
  ∧ parseRgLine (chars "a/b.txt" ++ ':' :: (natToStr 12 ++ ':' :: chars "x:y\n"))
      = some ⟨chars "a/b.txt", 12, rstripNl (chars "x:y\n")⟩
  ∧ (rstripNl (chars "nocolon")).count ':' < 2
  ∧ parseRgLine (chars "nocolon") = none :=
  ⟨by decide,
    claim_C6.1 (chars "a/b.txt") 12 (chars "x:y\n") (by decide),
    by decide,
    claim_C6.2.1 (chars "nocolon") (by decide)⟩

/-! ### Path-rendering lemmas and claims C5, C9 -/

theorem compPre_self : ∀ a : PathC, compPre a a = true := by
  intro a
  induction a with
  | nil => rfl
  | cons x xs ih => simp [compPre, ih]

theorem compPre_take : ∀ a b : PathC, compPre a b = true →
    a ++ b.drop a.length = b := by
  intro a
  induction a with
  | nil => intro b _; simp
  | cons x xs ih =>
    intro b h
    cases b with
    | nil => simp [compPre] at h
    | cons y ys =>
      simp only [compPre, Bool.and_eq_true, beq_iff_eq] at h
      obtain ⟨hxy, h2⟩ := h
      simp only [List.cons_append, List.length_cons, List.drop_succ_cons]
      rw [hxy, ih ys h2]

theorem render_append : ∀ a b : PathC, a ≠ [] → b ≠ [] →
    render (a ++ b) = render a ++ '/' :: render b := by
  intro a
  induction a with
  | nil => intro b h _; cases h rfl
  | cons x xs ih =>
    intro b _ hb
    cases xs with
    | nil =>
      cases b with
      | nil => cases hb rfl
      | cons y ys => simp [render]
    | cons x2 xs2 =>
      rw [List.cons_append]
      show x ++ '/' :: render ((x2 :: xs2) ++ b)
          = render (x :: x2 :: xs2) ++ '/' :: render b
      rw [ih b (by simp) hb]
      show x ++ '/' :: (render (x2 :: xs2) ++ '/' :: render b)
          = (x ++ '/' :: render (x2 :: xs2)) ++ '/' :: render b
      simp [List.append_assoc]

theorem renderAbs_split (root f : PathC) (hroot : root ≠ [])
    (hpre : compPre root f = true) (hlen : root.length < f.length) :
    renderAbs f = renderAbs root ++ '/' :: relStr root f := by
  obtain ⟨rel, hrel_eq⟩ : ∃ rel, f.drop root.length = rel := ⟨_, rfl⟩
  have hf : root ++ rel = f := by rw [← hrel_eq]; exact compPre_take root f hpre
  have hrel : rel ≠ [] := by
    intro h0
    have hl := congrArg List.length hrel_eq
    rw [h0, List.length_drop] at hl
    simp at hl
    omega
  simp only [relStr, hrel_eq]
  rw [if_neg (by simpa using hrel)]
  simp only [renderAbs]
  rw [← hf, render_append root rel hroot hrel]
  simp

theorem isFile_mem (fs : FS) (f : PathC) (h : isFile fs f = true) :
    ∃ e ∈ fs.files, e.1 = f := by
  simp only [isFile, List.any_eq_true, beq_iff_eq] at h
  exact h

theorem iterFiles_mem (fs : FS) (paths : List PathC) (globs : List Str) (f : PathC)
    (h : f ∈ iterFiles fs paths globs) :
    ∃ base ∈ paths, compPre base f = true ∧ isFile fs f = true := by
  simp only [iterFiles, List.mem_flatMap] at h
  obtain ⟨base, hb, hfm⟩ := h
  refine ⟨base, hb, ?_⟩
  by_cases hbf : isFile fs base = true
  · rw [if_pos hbf] at hfm
    simp only [List.mem_singleton] at hfm
    rw [hfm]
    exact ⟨compPre_self base, hbf⟩
  · rw [if_neg hbf] at hfm
    simp only [List.mem_flatMap] at hfm
    obtain ⟨g, _, hfg⟩ := hfm
    have hfil := List.mem_filter.1 hfg
    have hfu := hfil.1
    simp only [filesUnder, List.mem_filter, List.mem_map] at hfu
    obtain ⟨⟨e, he, hef⟩, hcp⟩ := hfu
    refine ⟨hcp, ?_⟩
    simp only [isFile, List.any_eq_true]
    exact ⟨e, he, by simp [hef]⟩

theorem filterMap_flatMap_local {α β γ : Type} (l : List α) (g : α → List β)
    (h : β → Option γ) :
    (l.flatMap g).filterMap h = l.flatMap (fun x => (g x).filterMap h) := by
  induction l with
  | nil => rfl
  | cons x t ih => simp [List.flatMap_cons, List.filterMap_append, ih]

theorem map_flatMap_local {α β γ : Type} (l : List α) (g : α → List β) (h : β → γ) :
    (l.flatMap g).map h = l.flatMap (fun x => (g x).map h) := by
  induction l with
  | nil => rfl
  | cons x t ih => simp [List.flatMap_cons, List.map_append, ih]

theorem flatMap_congr_local {α β : Type} (l : List α) (f g : α → List β)
    (h : ∀ x ∈ l, f x = g x) : l.flatMap f = l.flatMap g := by
  induction l with
  | nil => rfl
  | cons x t ih =>
    simp only [List.flatMap_cons]
    rw [h x (by simp), ih (fun y hy => h y (by simp [hy]))]

theorem filterMap_all_some_local {α β : Type} (h : α → Option β) (k : α → β) :
    ∀ l : List α, (∀ x ∈ l, h x = some (k x)) → l.filterMap h = l.map k := by
  intro l
  induction l with
  | nil => intro _; rfl
  | cons x t ih =>
    intro hall
    simp only [List.filterMap_cons, hall x (by simp), List.map_cons]
    rw [ih (fun y hy => hall y (by simp [hy]))]

/-- The adapter's parse of the modelled engine stdout recovers, per
enumerated file, exactly the hit lines as `Match`es whose path field is the
engine's absolute path string, verbatim. -/
theorem rgModel_matches (fs : FS) (paths : List PathC) (globs : List Str)
    (needle : Str) (cs : Bool)
    (hcol : ∀ f ∈ iterFiles fs paths globs, ':' ∉ renderAbs f) :
    (rgModelStdout fs paths globs needle cs).filterMap parseRgLine
      = (iterFiles fs paths globs).flatMap (fun f =>
          ((enumFrom 1 (fileLines fs f)).filter
              (fun p => lineHit (rgSens cs needle) needle p.2)).map
            (fun p => (⟨renderAbs f, p.1, rstripNl p.2⟩ : Match))) := by
  simp only [rgModelStdout]
  rw [filterMap_flatMap_local]
  apply flatMap_congr_local
  intro f hf
  rw [List.filterMap_map]
  apply filterMap_all_some_local
  intro p _
  exact parseRgLine_wf (renderAbs f) p.1 p.2 (hcol f hf)

theorem rgSens_eq (cs : Bool) (needle : Str)
    (hcs : cs = true ∨ needle.all (fun c => !c.isUpper) = true) :
    rgSens cs needle = cs := by
  rcases hcs with h | h
  · rw [h]; rfl
  · simp only [rgSens]
    have hany : needle.any (fun c => c.isUpper) = false := by
      rw [List.any_eq_false]
      intro x hx
      have hx' := List.all_eq_true.1 h x hx
      simpa using hx'
    rw [hany, Bool.or_false]

/-- C5 (amended): for a fixed corpus and literal needle, the external
backend (modelled engine plus adapter) and the fallback scanner agree on
the ordered list — hence the set — of (path, line) pairs whenever the
request is case-sensitive or the needle contains no uppercase character
(the adapter passes `-S`, making the engine smart-case), and then only up
to path form: the external backend reports the engine's absolute path
strings, the fallback the boundary-relative ones. -/
theorem claim_C5_amended (fs : FS) (root : PathC) (paths : List PathC)
    (globs : List Str) (needle : Str) (cs : Bool)
    (hroot : root ≠ [])
    (hcs : cs = true ∨ needle.all (fun c => !c.isUpper) = true)
    (hf : ∀ f ∈ iterFiles fs paths globs,
        compPre root f = true ∧ root.length < f.length ∧ ':' ∉ renderAbs f) :
    (runRgMatches none (rgModelStdout fs paths globs needle cs)).map
        (fun m => (m.path, m.line))
      = (runPythonFallback fs root needle paths globs cs none).map
          (fun m => (renderAbs root ++ '/' :: m.path, m.line)) := by
  rw [runRgMatches_none]
  rw [rgModel_matches fs paths globs needle cs (fun f hfm => (hf f hfm).2.2)]
  rw [runPythonFallback_none]
  simp only [fallbackAll, fileAllMatches]
  rw [map_flatMap_local, map_flatMap_local]
  apply flatMap_congr_local
  intro f hfm
  obtain ⟨hpre, hlen, _⟩ := hf f hfm
  simp only [fileAllMatches]
  rw [rgSens_eq cs needle hcs]
  simp only [List.map_map]
  apply List.map_congr_left
  intro p _
  have hpath := renderAbs_split root f hroot hpre hlen
  simp [Function.comp, hpath]

/-- C5 as stated is false: same corpus, same literal needle `NEEDLE`, same
case-insensitive parameters — the modelled smart-case engine (the needle
contains uppercase letters, so `-S` makes it case-sensitive) finds nothing
while the fallback scanner, which always lowers both sides, finds line 2;
the (path, line) sets differ. -/
theorem claim_C5_counterexample :
    (runRgMatches none
        (rgModelStdout fsDemo [[chars "r"]] [chars "*"] (chars "NEEDLE") false)).map
        (fun m => (m.path, m.line)) = []
  ∧ (runPythonFallback fsDemo [chars "r"] (chars "NEEDLE") [[chars "r"]]
        [chars "*"] false none).map (fun m => (m.path, m.line))
      = [(chars "a.txt", 2)]
  ∧ ([] : List (Str × Nat)) ≠ [(chars "a.txt", 2)] :=
  ⟨by decide, by decide, by decide⟩

theorem claim_C5_witness :
    ([chars "r"] : PathC) ≠ []
  ∧ (false = true ∨ (chars "needle").all (fun c => !c.isUpper) = true)
  ∧ (∀ f ∈ iterFiles fsDemo [[chars "r"]] [chars "*"],
      compPre [chars "r"] f = true ∧ ([chars "r"] : PathC).length < f.length
        ∧ ':' ∉ renderAbs f)
  ∧ (runRgMatches none
        (rgModelStdout fsDemo [[chars "r"]] [chars "*"] (chars "needle") false)).map
        (fun m => (m.path, m.line))
      = (runPythonFallback fsDemo [chars "r"] (chars "needle") [[chars "r"]]
          [chars "*"] false none).map
          (fun m => (renderAbs [chars "r"] ++ '/' :: m.path, m.line)) :=
  ⟨by decide, Or.inr (by decide), by decide,
    claim_C5_amended fsDemo [chars "r"] [[chars "r"]] [chars "*"] (chars "needle")
      false (by decide) (Or.inr (by decide)) (by decide)⟩

/-- C9 (amended): every fallback-scanner `Match` carries a boundary-relative
path naming a validated path's relative form or a file beneath one; the
external adapter instead emits the engine's path field verbatim — the
absolute rendering of an enumerated file — never a boundary-relative form. -/
theorem claim_C9_amended (fs : FS) (root : PathC) (needle : Str)
    (paths : List PathC) (globs : List Str) (cs : Bool) (cap : Option Nat)
    (hcol : ∀ f ∈ iterFiles fs paths globs, ':' ∉ renderAbs f) :
    (∀ m ∈ runPythonFallback fs root needle paths globs cs cap,
        matchPathOkB fs root paths m.path = true)
  ∧ (∀ m ∈ runRgMatches cap (rgModelStdout fs paths globs needle cs),
        ∃ f ∈ iterFiles fs paths globs, m.path = renderAbs f) := by
  constructor
  · intro m hm
    obtain ⟨f, hfm, hpath⟩ :=
      runPythonFallback_mem fs root needle paths globs cs cap m hm
    obtain ⟨base, hb, hcp, hisf⟩ := iterFiles_mem fs paths globs f hfm
    obtain ⟨e, he, hef⟩ := isFile_mem fs f hisf
    simp only [matchPathOkB, List.any_eq_true]
    refine ⟨base, hb, ?_⟩
    rw [Bool.or_eq_true]
    right
    rw [List.any_eq_true]
    refine ⟨e, he, ?_⟩
    rw [Bool.and_eq_true]
    refine ⟨by rw [hef]; exact hcp, ?_⟩
    rw [beq_iff_eq, hef, hpath]
  · intro m hm
    have hmem : m ∈ (rgModelStdout fs paths globs needle cs).filterMap parseRgLine := by
      rcases runRgGo_mem cap (rgModelStdout fs paths globs needle cs) [] m
        (by simpa [runRgMatches] using hm) with h | h
      · cases h
      · exact h
    rw [rgModel_matches fs paths globs needle cs hcol] at hmem
    simp only [List.mem_flatMap] at hmem
    obtain ⟨f, hf, hmf⟩ := hmem
    refine ⟨f, hf, ?_⟩
    simp only [List.mem_map] at hmf
    obtain ⟨p, _, hp⟩ := hmf
    rw [← hp]

/-- C9 as stated is false: the external adapter emits the match for
`/r/a.txt` with the absolute path string it received from the engine, which
is neither a validated path's boundary-relative form nor the relative form
of a file beneath one. -/
theorem claim_C9_counterexample :
    runRgMatches none
        (rgModelStdout fsDemo [[chars "r"]] [chars "*"] (chars "needle") true)
      = [⟨chars "/r/a.txt", 2, chars "two needle three"⟩]
  ∧ matchPathOkB fsDemo [chars "r"] [[chars "r"]] (chars "/r/a.txt") = false :=
  ⟨by decide, by decide⟩

theorem claim_C9_witness :
    (∀ f ∈ iterFiles fsDemo [[chars "r"]] [chars "*"], ':' ∉ renderAbs f)
  ∧ (∀ m ∈ runPythonFallback fsDemo [chars "r"] (chars "needle") [[chars "r"]]
        [chars "*"] false none,
      matchPathOkB fsDemo [chars "r"] [[chars "r"]] m.path = true) :=
  ⟨by decide,
    (claim_C9_amended fsDemo [chars "r"] (chars "needle") [[chars "r"]]
      [chars "*"] false none (by decide)).1⟩
